import Mathlib

set_option maxHeartbeats 1000000

/-!
Verification development for the music-genre-analysis-tool repository.

Part 1 embeds the plotting routines of src/plot_lib/plotter.py as pure
functions: Python's fallible integer true-division is modelled in the
Except monad, and each plotting routine is reduced to the data it draws
and the errors it can raise.

Part 2 models the convex clustering engine.  The engine itself
(models.ConvexCluster.convex_cluster, in the model package) is not part of
the sources here; only its CLI caller src/mgat_convex_clustering.py is.
Those definitions are therefore modelled from the specification, as their
doc comments state.
-/

/-- Python runtime errors that the embedded plotter code can raise. -/
inductive PyErr where
  | zeroDivisionError
  | unboundLocalError
  deriving DecidableEq

/-- Observable drawing events of a plotting routine, in program order.
A `traj` event carries the polyline drawn for one sample of
plot_convex_clusters. -/
inductive PlotEv where
  | traj (pts : List (ℚ × ℚ))
  | scatterPts
  | colorbar
  | savefig
  deriving DecidableEq

/-- Python integer true-division `a / b` as used in plotter.py: raises
ZeroDivisionError when the denominator is zero, otherwise the exact
rational quotient. -/
def pydiv (a b : ℤ) : Except PyErr ℚ :=
  if b = 0 then .error .zeroDivisionError else .ok ((a : ℚ) / (b : ℚ))

/-- The colour-list construction shared by plot_2D (line 176),
plot_convex_clusters (line 277) and plot_2d_kmeans_boundaries (line 73):
`[CMAP(i / (n - 1)) for i in range(n)]` for a count `n`. -/
def colourFractions (n : ℕ) : Except PyErr (List ℚ) :=
  (List.range n).mapM (fun i => pydiv (i : ℤ) ((n : ℤ) - 1))

/-- `np.unique(y_true)` used only through its count of distinct labels. -/
def uniqueLabels (y : List ℤ) : List ℤ := y.dedup

/-- plot_2D (plotter.py lines 160-191): colour construction from the
distinct labels, then scatter, colour bar and savefig. -/
def plot2DTrace (y_true : List ℤ) : Except PyErr (List PlotEv) := do
  let n := (uniqueLabels y_true).length
  let _ ← colourFractions n
  pure [PlotEv.scatterPts, PlotEv.colorbar, PlotEv.savefig]

/-- `np.array([U[i] for U in u_path])` restricted to its two plotted
columns (plotter.py lines 270-272): the trajectory of sample `i`,
one 2-D point per Center Matrix of the U-Path, in path order. -/
def clusterPathPts (u_path : List (List (List ℚ))) (i : ℕ) : List (ℚ × ℚ) :=
  u_path.map (fun U => ((U.getD i []).getD 0 0, (U.getD i []).getD 1 0))

/-- The trajectories drawn by the loop `for i in range(len(latent_space))`
of plot_convex_clusters (plotter.py lines 269-272). -/
def convexTrajectories (latent_space : List (List ℚ)) (u_path : List (List (List ℚ))) :
    List (List (ℚ × ℚ)) :=
  (List.range latent_space.length).map (fun i => clusterPathPts u_path i)

/-- plot_convex_clusters (plotter.py lines 254-289): trajectory drawing,
then colour construction from the distinct labels, scatter, colour bar and
savefig. -/
def plotConvexTrace (latent_space : List (List ℚ)) (u_path : List (List (List ℚ)))
    (y_true : List ℤ) : Except PyErr (List PlotEv) := do
  let trajEvents := (convexTrajectories latent_space u_path).map PlotEv.traj
  let n := (uniqueLabels y_true).length
  let _ ← colourFractions n
  pure (trajEvents ++ [PlotEv.scatterPts, PlotEv.colorbar, PlotEv.savefig])

/-- plot_2d_kmeans_boundaries (plotter.py lines 59-106): colour
construction from kmeans.n_clusters happens first, the figure is saved
last. -/
def kmeansBoundariesTrace (n_clusters : ℕ) : Except PyErr (List PlotEv) := do
  let _ ← colourFractions n_clusters
  pure [PlotEv.scatterPts, PlotEv.colorbar, PlotEv.savefig]

/-- `round(q, 2)` of plotter.py line 31, modelled as rounding half up to
two decimals; the rounding mode is immaterial to the claims, only the
division feeding it matters. -/
def round2 (q : ℚ) : ℚ := (⌊q * 100 + 1 / 2⌋ : ℚ) / 100

/-- The per-cluster body of the plot_tree_map loop (plotter.py lines
20-32) restricted to its fallible part: `[round(s/total, 2) for s in
sizes]` with `total = sum(sizes)`. -/
def clusterPercentages (values : List (ℤ × ℤ)) : Except PyErr (List ℚ) :=
  let sizes := values.map (fun kv => kv.2)
  let total := sizes.sum
  sizes.mapM (fun s => do
    let q ← pydiv s total
    pure (round2 q))

/-- The `for i, (cluster_key, values) in enumerate(cluster_stats.items())`
loop of plot_tree_map: runs each body, returning the last value bound to
`i`, or the incoming binding when the loop body never runs. -/
def treeLoop : List (ℤ × List (ℤ × ℤ)) → ℕ → Option ℕ → Except PyErr (Option ℕ)
  | [], _, last => .ok last
  | c :: rest, idx, _ => do
      let _ ← clusterPercentages c.2
      treeLoop rest (idx + 1) (some idx)

/-- plot_tree_map (plotter.py lines 7-57): allocates
`ceil(len(cluster_stats)/4)` rows of 4 subplots, runs the treemap loop,
then hides the axes `range(i + 1, len(axes))` for the last bound `i`;
reading `i` after an empty loop is Python's unbound-local error.  Returns
the row count together with the hidden axis indices. -/
def plotTreeMap (cluster_stats : List (ℤ × List (ℤ × ℤ))) : Except PyErr (ℕ × List ℕ) :=
  let n_cols := 4
  let n_rows := (cluster_stats.length + n_cols - 1) / n_cols
  match treeLoop cluster_stats 0 none with
  | .error e => .error e
  | .ok none => .error .unboundLocalError
  | .ok (some i) => .ok (n_rows, List.range' (i + 1) (n_rows * n_cols - (i + 1)))

/-- plot_correlation_accuracy (plotter.py lines 204-208): the accuracy
values computed in the loop `for n in range(1, max_n_neighbours + 1)`.
The external collaborators utils.correlation and
sklearn.metrics.accuracy_score are parameters. -/
def correlationAccuracies (corr : ℕ → List ℤ × List ℤ) (acc : List ℤ → List ℤ → ℚ)
    (max_n_neighbours : ℕ) : List ℚ :=
  (List.range' 1 max_n_neighbours).map (fun n => acc (corr n).1 (corr n).2)

/-- The points handed to plt.plot by plot_correlation_accuracy (plotter.py
line 210): `range(1, max_n_neighbours + 1)` zipped with the accuracy
values. -/
def plotCorrelationTrace (corr : ℕ → List ℤ × List ℤ) (acc : List ℤ → List ℤ → ℚ)
    (max_n_neighbours : ℕ) : List (ℕ × ℚ) :=
  (List.range' 1 max_n_neighbours).zip (correlationAccuracies corr acc max_n_neighbours)

/-! Part 2: the convex clustering engine, modelled from the spec. -/

/-- A row of the Feature or Center Matrix: a D-dimensional real vector. -/
def Vec (D : ℕ) : Type := Fin D → ℝ

/-- The all-zero vector, used as an out-of-range row default. -/
def zeroVec (D : ℕ) : Vec D := fun _ => 0

/-- Pointwise vector addition. -/
def vadd {D : ℕ} (u v : Vec D) : Vec D := fun t => u t + v t

/-- Pointwise vector subtraction. -/
def vsub {D : ℕ} (u v : Vec D) : Vec D := fun t => u t - v t

/-- Scalar multiple of a vector. -/
def vsmul {D : ℕ} (c : ℝ) (v : Vec D) : Vec D := fun t => c * v t

/-- Euclidean norm of a row vector. -/
noncomputable def vnorm {D : ℕ} (v : Vec D) : ℝ := Real.sqrt (∑ t, v t ^ 2)

/-- Modelled from the spec: the vector soft-thresholding (shrinkage) of
section 4.2, missing with models.ConvexCluster.  The magnitude of `d` is
shrunk by `t`, clipping to exactly zero when the shrinkage exceeds the
norm; a difference whose norm is exactly zero receives zero displacement
instead of a division by zero. -/
noncomputable def shrink {D : ℕ} (t : ℝ) (d : Vec D) : Vec D :=
  if vnorm d = 0 then d else vsmul (max 0 (1 - t / vnorm d)) d

/-- Modelled from the spec: the per-edge proximal update of section 4.2,
missing with models.ConvexCluster.  For edge `(i, j, w)` the difference of
the two centers is soft-thresholded by `lam * w` and redistributed around
the preserved midpoint. -/
noncomputable def applyEdge {D : ℕ} (lam : ℝ) (U : List (Vec D)) (e : ℕ × ℕ × ℝ) :
    List (Vec D) :=
  let ui := U.getD e.1 (zeroVec D)
  let uj := U.getD e.2.1 (zeroVec D)
  let d := vsub ui uj
  let d2 := shrink (lam * e.2.2) d
  let m := vsmul (1 / 2) (vadd ui uj)
  (U.set e.1 (vadd m (vsmul (1 / 2) d2))).set e.2.1 (vsub m (vsmul (1 / 2) d2))

/-- The directed edges of a neighbor graph: sample `i` paired with each of
its `(neighbour, weight)` entries, in stored order. -/
def allEdges (G : List (List (ℕ × ℝ))) : List (ℕ × ℕ × ℝ) :=
  G.enum.flatMap (fun p => p.2.map (fun q => (p.1, q.1, q.2)))

/-- Modelled from the spec: the data-fit update of section 4.2, missing
with models.ConvexCluster, pulling each row of U toward the corresponding
row of X with step `η`. -/
noncomputable def dataFitStep {D : ℕ} (η : ℝ) (X U : List (Vec D)) : List (Vec D) :=
  List.zipWith (fun x u => vadd u (vsmul η (vsub x u))) X U

/-- Modelled from the spec: one pass of per-edge shrinkage updates over
every directed edge of the neighbor graph. -/
noncomputable def edgeSweep {D : ℕ} (G : List (List (ℕ × ℝ))) (lam : ℝ) (U : List (Vec D)) :
    List (Vec D) :=
  (allEdges G).foldl (applyEdge lam) U

/-- Modelled from the spec: one optimizer iteration for a single λ —
a data-fit update followed by the edge shrinkage pass. -/
noncomputable def sweep {D : ℕ} (G : List (List (ℕ × ℝ))) (lam η : ℝ) (X U : List (Vec D)) :
    List (Vec D) :=
  edgeSweep G lam (dataFitStep η X U)

/-- Change between successive iterates, used for the convergence test. -/
noncomputable def matDiff {D : ℕ} (U V : List (Vec D)) : ℝ :=
  (List.zipWith (fun u v => vnorm (vsub u v)) U V).sum

/-- Modelled from the spec: the single-λ optimizer of section 4.2, missing
with models.ConvexCluster.  Iterates `sweep` from the warm start until the
change falls below the tolerance or the iteration cap is reached. -/
noncomputable def optimize {D : ℕ} (G : List (List (ℕ × ℝ))) (lam η tol : ℝ)
    (X : List (Vec D)) : ℕ → List (Vec D) → List (Vec D)
  | 0, U => U
  | fuel + 1, U =>
      let U2 := sweep G lam η X U
      if matDiff U U2 < tol then U2 else optimize G lam η tol X fuel U2

/-- Modelled from the spec: the path driver of section 4.3, missing with
models.ConvexCluster.  Sweeps the λ sequence in order, warm-starting each
optimization from the previous result and collecting one Center Matrix per
λ. -/
noncomputable def uPath {D : ℕ} (G : List (List (ℕ × ℝ))) (η tol : ℝ) (X : List (Vec D))
    (fuel : ℕ) : List ℝ → List (Vec D) → List (List (Vec D))
  | [], _ => []
  | lam :: rest, U =>
      let U2 := optimize G lam η tol X fuel U
      U2 :: uPath G η tol X fuel rest U2

/-- All index pairs `i < j` below `n`, in lexicographic order. -/
def allPairs (n : ℕ) : List (ℕ × ℕ) :=
  (List.range n).flatMap
    (fun i => ((List.range n).filter (fun j => i < j)).map (fun j => (i, j)))

/-- Merge two cluster labels by relabelling every occurrence of `y` to
`x`. -/
def mergeLabels (ls : List ℕ) (x y : ℕ) : List ℕ := ls.map (fun v => if v = y then x else v)

/-- Modelled from the spec: the cluster extractor of section 4.4, missing
with models.ConvexCluster.  Samples start in singleton classes and the
classes of every pair of rows within Euclidean distance `eps` are merged;
the resulting labels identify the connected components of the
ε-closeness graph. -/
noncomputable def clusterLabels {D : ℕ} (eps : ℝ) (U : List (Vec D)) : List ℕ :=
  (allPairs U.length).foldl
    (fun ls pr =>
      if vnorm (vsub (U.getD pr.1 (zeroVec D)) (U.getD pr.2 (zeroVec D))) < eps then
        mergeLabels ls (ls.getD pr.1 0) (ls.getD pr.2 0)
      else ls)
    (List.range U.length)

/-- Number of distinct clusters extracted from a Center Matrix. -/
noncomputable def countClusters {D : ℕ} (eps : ℝ) (U : List (Vec D)) : ℕ :=
  (clusterLabels eps U).dedup.length

/-- Modelled from the spec: the neighbor list of one sample built by the
graph builder of section 4.1, missing with models.ConvexCluster — the k
nearest other samples by Euclidean distance, ties broken by ascending
index, each weighted by a decreasing function of the distance. -/
noncomputable def neighbourList {D : ℕ} (X : List (Vec D)) (i k : ℕ) : List (ℕ × ℝ) :=
  let xi := X.getD i (zeroVec D)
  let cands := (X.enum.filter (fun p => p.1 ≠ i)).map (fun p => (p.1, vnorm (vsub xi p.2)))
  let sorted := cands.insertionSort (fun p q => p.2 < q.2 ∨ (p.2 = q.2 ∧ p.1 ≤ q.1))
  (sorted.take k).map (fun p => (p.1, Real.exp (-p.2)))

/-- Modelled from the spec: the neighbor graph builder of section 4.1,
missing with models.ConvexCluster. -/
noncomputable def buildGraph {D : ℕ} (X : List (Vec D)) (k : ℕ) : List (List (ℕ × ℝ)) :=
  (List.range X.length).map (fun i => neighbourList X i k)

/-- Error signal of the engine's eager parameter validation. -/
inductive ClusterErr where
  | invalidParameter
  deriving DecidableEq

/-- Ascending-order check on a λ sequence. -/
noncomputable def isAscending : List ℝ → Bool
  | [] => true
  | [_] => true
  | a :: b :: rest => decide (a ≤ b) && isAscending (b :: rest)

/-- Modelled from the spec: the engine entry point
models.ConvexCluster.convex_cluster, missing from the sources.  Validates
the parameters eagerly — k within [1, N−1], λ sequence ascending,
non-degenerate matrix — before any λ is processed, then builds the
neighbor graph, runs the path driver warm-started at X, and extracts the
final labels. -/
noncomputable def convexCluster {D : ℕ} (X : List (Vec D)) (lambda_vals : List ℝ) (k : ℕ)
    (η tol eps : ℝ) (fuel : ℕ) : Except ClusterErr (List (List (Vec D)) × List ℕ) :=
  if k < 1 ∨ X.length - 1 < k then .error .invalidParameter
  else if isAscending lambda_vals = false then .error .invalidParameter
  else if X.length = 0 ∨ D = 0 then .error .invalidParameter
  else
    let G := buildGraph X k
    let path := uPath G η tol X fuel lambda_vals X
    .ok (path, clusterLabels eps (path.getLastD X))

/-- The i-th exponent of np.linspace(-2, 1, n) as computed by
src/mgat_convex_clustering.py line 39. -/
noncomputable def linspaceVal (n i : ℕ) : ℝ := -2 + 3 * (i : ℝ) / ((n : ℝ) - 1)

/-- np.logspace(-2, 1, n): the λ sequence the CLI driver builds at
src/mgat_convex_clustering.py line 39. -/
noncomputable def lambdaValues (n : ℕ) : List ℝ :=
  (List.range n).map (fun i => (10 : ℝ) ^ (linspaceVal n i))

/-- The CLI driver of src/mgat_convex_clustering.py lines 38-40: it
computes np.logspace(-2, 1, lambda_val) and hands the matrix, the λ
sequence and k to the engine with no validation of its own. -/
noncomputable def driverRun {D : ℕ} (X : List (Vec D)) (n k : ℕ) (η tol eps : ℝ)
    (fuel : ℕ) : Except ClusterErr (List (List (Vec D)) × List ℕ) :=
  convexCluster X (lambdaValues n) k η tol eps fuel

/-! Concrete two-sample instances used for the monotone-fusion test case. -/

/-- Constant one-dimensional row vector. -/
def vec1 (x : ℝ) : Vec 1 := fun _ => x

/-- Feature matrix of the two-sample test case: samples at 0 and `a` on a
line. -/
noncomputable def pairX (a : ℝ) : List (Vec 1) := [vec1 0, vec1 a]

/-- The fully-connected neighbor graph on two samples, with one directed
edge each way. -/
def pairGraph (w w2 : ℝ) : List (List (ℕ × ℝ)) := [[(1, w)], [(0, w2)]]

/-- Two-sample Center Matrix with row sum `s` and separation `b`. -/
noncomputable def pstate (s b : ℝ) : List (Vec 1) := [vec1 ((s - b) / 2), vec1 ((s + b) / 2)]

/-- Scalar soft-threshold for nonnegative arguments. -/
noncomputable def sthr (t x : ℝ) : ℝ := max 0 (x - t)

/-- Action of one optimizer sweep on the separation of the two-sample test
case. -/
noncomputable def pairSweepFun (η a w w2 lam b : ℝ) : ℝ :=
  sthr (lam * w2) (sthr (lam * w) ((1 - η) * b + η * a))

/-- Lower bound kept invariant by the sweeps of the two-sample test case
at penalty `lam`. -/
noncomputable def pairFloor (η a w w2 lam : ℝ) : ℝ := max 0 (a - lam * (w + w2) / η)

/-! Helper lemmas. -/

theorem list_set_getD {α : Type} : ∀ (l : List α) (i : ℕ) (d : α), l.set i (l.getD i d) = l
  | [], _, _ => rfl
  | _ :: _, 0, _ => rfl
  | a :: r, i + 1, d => congrArg (List.cons a) (list_set_getD r i d)

theorem vnorm_zeroVec {D : ℕ} : vnorm (zeroVec D) = 0 := by
  unfold vnorm zeroVec
  simp

theorem vsub_self_vec {D : ℕ} (u : Vec D) : vsub u u = zeroVec D := by
  funext s
  simp [vsub, zeroVec]

theorem shrink_zero_t {D : ℕ} (d : Vec D) : shrink 0 d = d := by
  unfold shrink
  split
  · rfl
  · funext s
    simp [vsmul, zero_div]

theorem shrink_zeroVec {D : ℕ} (t : ℝ) : shrink t (zeroVec D) = zeroVec D := by
  unfold shrink
  rw [if_pos vnorm_zeroVec]

theorem midpoint_add_half_diff {D : ℕ} (u v : Vec D) :
    vadd (vsmul (1 / 2) (vadd u v)) (vsmul (1 / 2) (vsub u v)) = u := by
  funext s
  simp only [vadd, vsmul, vsub]
  ring

theorem midpoint_sub_half_diff {D : ℕ} (u v : Vec D) :
    vsub (vsmul (1 / 2) (vadd u v)) (vsmul (1 / 2) (vsub u v)) = v := by
  funext s
  simp only [vadd, vsmul, vsub]
  ring

theorem vadd_half_zero {D : ℕ} (u : Vec D) :
    vadd (vsmul (1 / 2) (vadd u u)) (vsmul (1 / 2) (zeroVec D)) = u := by
  funext s
  simp only [vadd, vsmul, zeroVec]
  ring

theorem vsub_half_zero {D : ℕ} (u : Vec D) :
    vsub (vsmul (1 / 2) (vadd u u)) (vsmul (1 / 2) (zeroVec D)) = u := by
  funext s
  simp only [vadd, vsub, vsmul, zeroVec]
  ring

theorem applyEdge_zero_lam {D : ℕ} (U : List (Vec D)) (e : ℕ × ℕ × ℝ) :
    applyEdge 0 U e = U := by
  obtain ⟨i, j, wt⟩ := e
  show (U.set i (vadd (vsmul (1 / 2) (vadd (U.getD i (zeroVec D)) (U.getD j (zeroVec D))))
      (vsmul (1 / 2) (shrink (0 * wt) (vsub (U.getD i (zeroVec D)) (U.getD j (zeroVec D))))))).set j
      (vsub (vsmul (1 / 2) (vadd (U.getD i (zeroVec D)) (U.getD j (zeroVec D))))
      (vsmul (1 / 2) (shrink (0 * wt) (vsub (U.getD i (zeroVec D)) (U.getD j (zeroVec D)))))) = U
  rw [zero_mul, shrink_zero_t, midpoint_add_half_diff, midpoint_sub_half_diff, list_set_getD,
    list_set_getD]

theorem dataFitStep_self {D : ℕ} (η : ℝ) : ∀ (X : List (Vec D)), dataFitStep η X X = X
  | [] => rfl
  | x :: r => by
      unfold dataFitStep
      rw [List.zipWith_cons_cons]
      congr 1
      · funext s
        simp [vadd, vsmul, vsub]
      · exact dataFitStep_self η r

theorem foldl_applyEdge_zero {D : ℕ} : ∀ (es : List (ℕ × ℕ × ℝ)) (U : List (Vec D)),
    es.foldl (applyEdge 0) U = U
  | [], _ => rfl
  | e :: r, U => by
      rw [List.foldl_cons, applyEdge_zero_lam]
      exact foldl_applyEdge_zero r U

theorem isAscending_of_chain : ∀ (l : List ℝ), l.Chain' (· ≤ ·) → isAscending l = true
  | [], _ => rfl
  | [_], _ => rfl
  | a :: b :: rest, h => by
      rw [List.chain'_cons] at h
      unfold isAscending
      rw [isAscending_of_chain (b :: rest) h.2]
      simp [h.1]

theorem colourFractions_one : colourFractions 1 = .error .zeroDivisionError := rfl

theorem mapM_pydiv_ok (l : List ℤ) (total : ℤ) (h : total ≠ 0) :
    ∃ ps, (l.mapM (fun s => do
      let q ← pydiv s total
      pure (round2 q)) : Except PyErr (List ℚ)) = .ok ps := by
  induction l with
  | nil => exact ⟨[], rfl⟩
  | cons s r ih =>
      obtain ⟨ps, hps⟩ := ih
      refine ⟨round2 ((s : ℚ) / (total : ℚ)) :: ps, ?_⟩
      rw [List.mapM_cons]
      have h1 : pydiv s total = Except.ok ((s : ℚ) / (total : ℚ)) := if_neg h
      simp only [h1, hps]
      rfl

theorem clusterPercentages_ok (values : List (ℤ × ℤ))
    (h : values ≠ [] → (values.map (fun kv => kv.2)).sum ≠ 0) :
    ∃ ps, clusterPercentages values = .ok ps := by
  rcases eq_or_ne values [] with rfl | hne
  · exact ⟨[], rfl⟩
  · exact mapM_pydiv_ok _ _ (h hne)

theorem treeLoop_ok : ∀ (cs : List (ℤ × List (ℤ × ℤ))) (idx : ℕ) (last : Option ℕ),
    (∀ c ∈ cs, c.2 ≠ [] → (c.2.map (fun kv => kv.2)).sum ≠ 0) →
    treeLoop cs idx last =
      .ok (match cs with | [] => last | _ :: rest => some (idx + rest.length))
  | [], _, _, _ => rfl
  | c :: rest, idx, last, h => by
      obtain ⟨ps, hps⟩ := clusterPercentages_ok c.2 (h c (List.mem_cons_self _ _))
      have ih := treeLoop_ok rest (idx + 1) (some idx)
        (fun d hd => h d (List.mem_cons_of_mem _ hd))
      unfold treeLoop
      rw [hps]
      show treeLoop rest (idx + 1) (some idx) = _
      rw [ih]
      cases rest with
      | nil => rfl
      | cons d r => exact congrArg Except.ok (congrArg some (Nat.add_right_comm idx 1 r.length))

/-! Helper lemmas for the two-sample monotone-fusion test case. -/

theorem vnorm_vec1 (x : ℝ) : vnorm (vec1 x) = |x| := by
  unfold vnorm vec1
  rw [Fin.sum_univ_one]
  exact Real.sqrt_sq_eq_abs x

theorem scalar_shrink (t y : ℝ) (hy : 0 < y) : max 0 (1 - t / y) * y = max 0 (y - t) := by
  rw [max_mul_of_nonneg _ _ hy.le, zero_mul, sub_mul, one_mul, div_mul_cancel₀ _ (ne_of_gt hy)]

theorem sthr_nonneg (t x : ℝ) : 0 ≤ sthr t x := le_max_left _ _

theorem sthr_ge (t x : ℝ) : x - t ≤ sthr t x := le_max_right _ _

theorem shrink_vec1_nonneg (t x : ℝ) (ht : 0 ≤ t) (hx : 0 ≤ x) :
    shrink t (vec1 x) = vec1 (sthr t x) := by
  unfold shrink
  rw [vnorm_vec1, abs_of_nonneg hx]
  rcases eq_or_lt_of_le hx with heq | hpos
  · rw [if_pos heq.symm, ← heq]
    unfold sthr
    rw [zero_sub, max_eq_left (neg_nonpos.mpr ht)]
  · rw [if_neg (ne_of_gt hpos)]
    funext q
    show max 0 (1 - t / x) * x = sthr t x
    rw [scalar_shrink t x hpos]
    rfl

theorem shrink_vec1_nonpos (t x : ℝ) (ht : 0 ≤ t) (hx : x ≤ 0) :
    shrink t (vec1 x) = vec1 (-(sthr t (-x))) := by
  unfold shrink
  rw [vnorm_vec1, abs_of_nonpos hx]
  rcases eq_or_lt_of_le hx with heq | hneg
  · rw [if_pos (by rw [heq, neg_zero]), heq]
    unfold sthr
    rw [neg_zero, zero_sub, max_eq_left (neg_nonpos.mpr ht), neg_zero]
  · rw [if_neg (by intro h0; exact absurd (neg_eq_zero.mp h0) (ne_of_lt hneg))]
    funext q
    show max 0 (1 - t / -x) * x = -(sthr t (-x))
    have hy : 0 < -x := by linarith
    have h2 := scalar_shrink t (-x) hy
    have h3 : max 0 (1 - t / -x) * x = -(max 0 (1 - t / -x) * -x) := by ring
    rw [h3, h2]
    rfl

theorem dataFit_pair (η a s b : ℝ) :
    dataFitStep η (pairX a) (pstate s b) =
      pstate ((1 - η) * s + η * a) ((1 - η) * b + η * a) := by
  unfold dataFitStep pairX pstate
  rw [List.zipWith_cons_cons, List.zipWith_cons_cons, List.zipWith_nil_left]
  congr 1
  · funext q
    show (s - b) / 2 + η * (0 - (s - b) / 2) =
      (((1 - η) * s + η * a) - ((1 - η) * b + η * a)) / 2
    ring
  congr 1
  funext q
  show (s + b) / 2 + η * (a - (s + b) / 2) =
    (((1 - η) * s + η * a) + ((1 - η) * b + η * a)) / 2
  ring

theorem applyEdge_pair01 (lam w s b : ℝ) (hlw : 0 ≤ lam * w) (hb : 0 ≤ b) :
    applyEdge lam (pstate s b) (0, 1, w) = pstate s (sthr (lam * w) b) := by
  show [vadd (vsmul (1 / 2) (vadd (vec1 ((s - b) / 2)) (vec1 ((s + b) / 2))))
          (vsmul (1 / 2) (shrink (lam * w) (vsub (vec1 ((s - b) / 2)) (vec1 ((s + b) / 2))))),
        vsub (vsmul (1 / 2) (vadd (vec1 ((s - b) / 2)) (vec1 ((s + b) / 2))))
          (vsmul (1 / 2) (shrink (lam * w) (vsub (vec1 ((s - b) / 2)) (vec1 ((s + b) / 2)))))] =
      pstate s (sthr (lam * w) b)
  have hsub : vsub (vec1 ((s - b) / 2)) (vec1 ((s + b) / 2)) = vec1 (-b) := by
    funext q
    show (s - b) / 2 - (s + b) / 2 = -b
    ring
  rw [hsub, shrink_vec1_nonpos _ _ hlw (by linarith), neg_neg]
  unfold pstate
  congr 1
  · funext q
    show 1 / 2 * ((s - b) / 2 + (s + b) / 2) + 1 / 2 * -(sthr (lam * w) b) =
      (s - sthr (lam * w) b) / 2
    ring
  congr 1
  funext q
  show 1 / 2 * ((s - b) / 2 + (s + b) / 2) - 1 / 2 * -(sthr (lam * w) b) =
    (s + sthr (lam * w) b) / 2
  ring

theorem applyEdge_pair10 (lam w2 s b : ℝ) (hlw : 0 ≤ lam * w2) (hb : 0 ≤ b) :
    applyEdge lam (pstate s b) (1, 0, w2) = pstate s (sthr (lam * w2) b) := by
  show [vsub (vsmul (1 / 2) (vadd (vec1 ((s + b) / 2)) (vec1 ((s - b) / 2))))
          (vsmul (1 / 2) (shrink (lam * w2) (vsub (vec1 ((s + b) / 2)) (vec1 ((s - b) / 2))))),
        vadd (vsmul (1 / 2) (vadd (vec1 ((s + b) / 2)) (vec1 ((s - b) / 2))))
          (vsmul (1 / 2) (shrink (lam * w2) (vsub (vec1 ((s + b) / 2)) (vec1 ((s - b) / 2)))))] =
      pstate s (sthr (lam * w2) b)
  have hsub : vsub (vec1 ((s + b) / 2)) (vec1 ((s - b) / 2)) = vec1 b := by
    funext q
    show (s + b) / 2 - (s - b) / 2 = b
    ring
  rw [hsub, shrink_vec1_nonneg _ _ hlw hb]
  unfold pstate
  congr 1
  · funext q
    show 1 / 2 * ((s + b) / 2 + (s - b) / 2) - 1 / 2 * sthr (lam * w2) b =
      (s - sthr (lam * w2) b) / 2
    ring
  congr 1
  funext q
  show 1 / 2 * ((s + b) / 2 + (s - b) / 2) + 1 / 2 * sthr (lam * w2) b =
    (s + sthr (lam * w2) b) / 2
  ring

theorem sweep_pair (η a w w2 lam s b : ℝ) (hη0 : 0 ≤ η) (hη1 : η ≤ 1) (ha : 0 ≤ a)
    (hl : 0 ≤ lam) (hw : 0 ≤ w) (hw2 : 0 ≤ w2) (hb : 0 ≤ b) :
    sweep (pairGraph w w2) lam η (pairX a) (pstate s b) =
      pstate ((1 - η) * s + η * a) (pairSweepFun η a w w2 lam b) := by
  have hb1 : 0 ≤ (1 - η) * b + η * a :=
    add_nonneg (mul_nonneg (by linarith) hb) (mul_nonneg hη0 ha)
  unfold sweep edgeSweep
  rw [dataFit_pair]
  have hedges : allEdges (pairGraph w w2) = [(0, 1, w), (1, 0, w2)] := rfl
  rw [hedges, List.foldl_cons, applyEdge_pair01 _ _ _ _ (mul_nonneg hl hw) hb1,
    List.foldl_cons, applyEdge_pair10 _ _ _ _ (mul_nonneg hl hw2) (sthr_nonneg _ _),
    List.foldl_nil]
  rfl

theorem pairFloor_nonneg (η a w w2 lam : ℝ) : 0 ≤ pairFloor η a w w2 lam := le_max_left _ _

theorem pairFloor_le_a (η a w w2 lam : ℝ) (ha : 0 ≤ a) (hl : 0 ≤ lam) (hw : 0 ≤ w)
    (hw2 : 0 ≤ w2) (hη : 0 < η) : pairFloor η a w w2 lam ≤ a := by
  unfold pairFloor
  apply max_le ha
  have h1 : 0 ≤ lam * (w + w2) / η := by positivity
  linarith

theorem pairFloor_antitone (η a w w2 lam lam2 : ℝ) (hη : 0 < η) (hw : 0 ≤ w) (hw2 : 0 ≤ w2)
    (hll : lam ≤ lam2) : pairFloor η a w w2 lam2 ≤ pairFloor η a w w2 lam := by
  unfold pairFloor
  apply max_le (le_max_left _ _)
  apply le_max_of_le_right
  have h1 : lam * (w + w2) ≤ lam2 * (w + w2) :=
    mul_le_mul_of_nonneg_right hll (add_nonneg hw hw2)
  have h2 : lam * (w + w2) / η ≤ lam2 * (w + w2) / η :=
    (div_le_div_iff_of_pos_right hη).mpr h1
  linarith

theorem pairSweepFun_ge_floor (η a w w2 lam b : ℝ) (hη0 : 0 < η) (hη1 : η ≤ 1)
    (ha : 0 ≤ a) (hl : 0 ≤ lam) (hw : 0 ≤ w) (hw2 : 0 ≤ w2)
    (hb : pairFloor η a w w2 lam ≤ b) :
    pairFloor η a w w2 lam ≤ pairSweepFun η a w w2 lam b := by
  rcases le_or_lt (a - lam * (w + w2) / η) 0 with h | h
  · rw [show pairFloor η a w w2 lam = 0 from max_eq_left h]
    exact sthr_nonneg _ _
  · rw [show pairFloor η a w w2 lam = a - lam * (w + w2) / η from max_eq_right h.le] at hb ⊢
    have hne : η ≠ 0 := ne_of_gt hη0
    have hdist : lam * (w + w2) = lam * w + lam * w2 := by ring
    have hkey : η * (a - (a - lam * (w + w2) / η)) = lam * (w + w2) := by
      field_simp
    have h1 : (1 - η) * (a - lam * (w + w2) / η) ≤ (1 - η) * b :=
      mul_le_mul_of_nonneg_left hb (by linarith)
    have hc : (a - lam * (w + w2) / η) + lam * (w + w2) ≤ (1 - η) * b + η * a := by
      nlinarith [hkey, h1]
    have h2 := sthr_ge (lam * w) ((1 - η) * b + η * a)
    have h3 := sthr_ge (lam * w2) (sthr (lam * w) ((1 - η) * b + η * a))
    unfold pairSweepFun
    linarith

theorem pairSweepFun_le_b (η a w w2 lam b : ℝ) (hη0 : 0 < η) (hη1 : η ≤ 1)
    (ha : 0 ≤ a) (hl : 0 ≤ lam) (hw : 0 ≤ w) (hw2 : 0 ≤ w2)
    (hb : pairFloor η a w w2 lam ≤ b) :
    pairSweepFun η a w w2 lam b ≤ b := by
  have hb0 : 0 ≤ b := le_trans (pairFloor_nonneg _ _ _ _ _) hb
  have hQ : a - lam * (w + w2) / η ≤ b := le_trans (le_max_right _ _) hb
  have hne : η ≠ 0 := ne_of_gt hη0
  have hkey : η * a - lam * (w + w2) ≤ η * b := by
    have hm := mul_le_mul_of_nonneg_left hQ hη0.le
    have hid : η * (a - lam * (w + w2) / η) = η * a - lam * (w + w2) := by
      field_simp
      ring
    linarith
  have hdist : lam * (w + w2) = lam * w + lam * w2 := by ring
  have hlw : 0 ≤ lam * w := mul_nonneg hl hw
  have hlw2 : 0 ≤ lam * w2 := mul_nonneg hl hw2
  unfold pairSweepFun sthr
  apply max_le hb0
  rw [sub_le_iff_le_add]
  apply max_le (by linarith)
  linarith

theorem countClusters_pair (eps a b : ℝ) (hb : 0 ≤ b) :
    countClusters eps (pstate a b) = if b < eps then 1 else 2 := by
  unfold countClusters clusterLabels
  have hlen : (pstate a b).length = 2 := rfl
  rw [hlen]
  have hpairs : allPairs 2 = [(0, 1)] := rfl
  rw [hpairs, List.foldl_cons, List.foldl_nil]
  have hvs : vsub ((pstate a b).getD 0 (zeroVec 1)) ((pstate a b).getD 1 (zeroVec 1)) =
      vec1 (-b) := by
    funext q
    show (a - b) / 2 - (a + b) / 2 = -b
    ring
  rw [hvs, vnorm_vec1, abs_neg, abs_of_nonneg hb]
  by_cases hbe : b < eps
  · rw [if_pos hbe, if_pos hbe]
    decide
  · rw [if_neg hbe, if_neg hbe]
    decide

theorem optimize_pair (η a w w2 lam tol : ℝ) (hη0 : 0 < η) (hη1 : η ≤ 1) (ha : 0 ≤ a)
    (hl : 0 ≤ lam) (hw : 0 ≤ w) (hw2 : 0 ≤ w2) :
    ∀ (fuel : ℕ) (b : ℝ), pairFloor η a w w2 lam ≤ b →
      ∃ b2, optimize (pairGraph w w2) lam η tol (pairX a) fuel (pstate a b) = pstate a b2 ∧
        pairFloor η a w w2 lam ≤ b2 ∧ b2 ≤ b
  | 0, b, hb => ⟨b, rfl, hb, le_refl b⟩
  | fuel + 1, b, hb => by
      have hb0 : 0 ≤ b := le_trans (pairFloor_nonneg _ _ _ _ _) hb
      have hsw := sweep_pair η a w w2 lam a b hη0.le hη1 ha hl hw hw2 hb0
      rw [show (1 - η) * a + η * a = a from by ring] at hsw
      have hge := pairSweepFun_ge_floor η a w w2 lam b hη0 hη1 ha hl hw hw2 hb
      have hle := pairSweepFun_le_b η a w w2 lam b hη0 hη1 ha hl hw hw2 hb
      have hu : optimize (pairGraph w w2) lam η tol (pairX a) (fuel + 1) (pstate a b) =
          if matDiff (pstate a b) (sweep (pairGraph w w2) lam η (pairX a) (pstate a b)) < tol
          then sweep (pairGraph w w2) lam η (pairX a) (pstate a b)
          else optimize (pairGraph w w2) lam η tol (pairX a) fuel
            (sweep (pairGraph w w2) lam η (pairX a) (pstate a b)) := rfl
      rw [hu, hsw]
      by_cases hif : matDiff (pstate a b) (pstate a (pairSweepFun η a w w2 lam b)) < tol
      · rw [if_pos hif]
        exact ⟨pairSweepFun η a w w2 lam b, rfl, hge, hle⟩
      · rw [if_neg hif]
        obtain ⟨b2, heq, hge2, hle2⟩ :=
          optimize_pair η a w w2 lam tol hη0 hη1 ha hl hw hw2 fuel
            (pairSweepFun η a w w2 lam b) hge
        exact ⟨b2, heq, hge2, le_trans hle2 hle⟩

theorem uPath_pair (η a w w2 tol : ℝ) (fuel : ℕ) (hη0 : 0 < η) (hη1 : η ≤ 1) (ha : 0 ≤ a)
    (hw : 0 ≤ w) (hw2 : 0 ≤ w2) :
    ∀ (lams : List ℝ) (b : ℝ), lams.Chain' (· ≤ ·) → (∀ l ∈ lams, 0 ≤ l) →
      (∀ l0 ∈ lams.head?, pairFloor η a w w2 l0 ≤ b) →
      ∃ bs, uPath (pairGraph w w2) η tol (pairX a) fuel lams (pstate a b) =
          bs.map (pstate a) ∧
        List.Chain' (fun x y => 0 ≤ y ∧ y ≤ x) (b :: bs)
  | [], b, _, _, _ => ⟨[], rfl, List.chain'_singleton b⟩
  | lam :: rest, b, hch, hpos, hhead => by
      have hl : 0 ≤ lam := hpos lam (List.mem_cons_self _ _)
      have hfb : pairFloor η a w w2 lam ≤ b := hhead lam rfl
      obtain ⟨b1, heq, hge, hle⟩ :=
        optimize_pair η a w w2 lam tol hη0 hη1 ha hl hw hw2 fuel b hfb
      have hch2 := List.chain'_cons'.mp hch
      have hheadrest : ∀ l0 ∈ rest.head?, pairFloor η a w w2 l0 ≤ b1 := by
        intro l0 hl0
        exact le_trans (pairFloor_antitone η a w w2 lam l0 hη0 hw hw2 (hch2.1 l0 hl0)) hge
      obtain ⟨bs, hbs, hchain⟩ := uPath_pair η a w w2 tol fuel hη0 hη1 ha hw hw2 rest b1
        hch2.2 (fun l hl2 => hpos l (List.mem_cons_of_mem _ hl2)) hheadrest
      refine ⟨b1 :: bs, ?_, ?_⟩
      · show optimize (pairGraph w w2) lam η tol (pairX a) fuel (pstate a b) ::
            uPath (pairGraph w w2) η tol (pairX a) fuel rest
              (optimize (pairGraph w w2) lam η tol (pairX a) fuel (pstate a b)) = _
        rw [heq, hbs]
        rfl
      · exact List.chain'_cons.mpr
          ⟨⟨le_trans (pairFloor_nonneg _ _ _ _ _) hge, hle⟩, hchain⟩

theorem chain_strengthen : ∀ (b : ℝ) (bs : List ℝ), 0 ≤ b →
    List.Chain' (fun x y => 0 ≤ y ∧ y ≤ x) (b :: bs) →
    List.Chain' (fun x y => 0 ≤ x ∧ 0 ≤ y ∧ y ≤ x) (b :: bs)
  | b, [], _, _ => List.chain'_singleton b
  | b, c :: bs, hb, h => by
      rw [List.chain'_cons] at h ⊢
      exact ⟨⟨hb, h.1.1, h.1.2⟩, chain_strengthen c bs h.1.1 h.2⟩

theorem pairX_eq_pstate (a : ℝ) : pairX a = pstate a a := by
  unfold pairX pstate
  rw [show (a - a) / 2 = 0 from by ring, show (a + a) / 2 = a from by ring]

/-! The claim theorems. -/

/-- C1: for λ = 0 the Center Matrix returned by the convex clustering
optimizer equals the input feature matrix X exactly, for every feature
matrix, neighbor graph, step, tolerance and iteration budget.  At λ = 0
every shrinkage amount is zero and the data-fit update fixes U = X, so the
warm start X (the path driver's start for the first λ of an ascending
sequence) is returned unchanged: no fusion when the penalty is absent. -/
theorem convex_cluster_lambda_zero_identity {D : ℕ} (G : List (List (ℕ × ℝ))) (η tol : ℝ)
    (X : List (Vec D)) : ∀ (fuel : ℕ), optimize G 0 η tol X fuel X = X
  | 0 => rfl
  | fuel + 1 => by
      have hsw : sweep G 0 η X X = X := by
        unfold sweep edgeSweep
        rw [dataFitStep_self]
        exact foldl_applyEdge_zero _ _
      show (if matDiff X (sweep G 0 η X X) < tol then sweep G 0 η X X
            else optimize G 0 η tol X fuel (sweep G 0 η X X)) = X
      rw [hsw]
      split
      · rfl
      · exact convex_cluster_lambda_zero_identity G η tol X fuel

/-- C2: for every n ≥ 2 the λ sequence np.logspace(-2, 1, n) built by the
CLI driver is strictly ascending and strictly positive — in particular the
driver never supplies λ = 0 — so it satisfies the path driver's
ascending-order precondition. -/
theorem lambda_values_ascending_positive (n : ℕ) (hn : 2 ≤ n) :
    (lambdaValues n).Chain' (· < ·) ∧ (∀ x ∈ lambdaValues n, 0 < x) ∧
    isAscending (lambdaValues n) = true := by
  have hden : (0 : ℝ) < (n : ℝ) - 1 := by
    have h2 : (2 : ℝ) ≤ (n : ℝ) := by exact_mod_cast hn
    linarith
  have hmono : ∀ i j : ℕ, i < j → (10 : ℝ) ^ linspaceVal n i < (10 : ℝ) ^ linspaceVal n j := by
    intro i j hij
    rw [Real.rpow_lt_rpow_left_iff (by norm_num : (1 : ℝ) < 10)]
    unfold linspaceVal
    have hij2 : (i : ℝ) < (j : ℝ) := by exact_mod_cast hij
    have h3 : 3 * (i : ℝ) < 3 * (j : ℝ) := by linarith
    have h4 := (div_lt_div_iff_of_pos_right hden).mpr h3
    linarith
  have hpair : (lambdaValues n).Pairwise (· < ·) := by
    unfold lambdaValues
    exact (List.pairwise_lt_range n).map _ hmono
  refine ⟨hpair.chain', ?_, ?_⟩
  · intro x hx
    unfold lambdaValues at hx
    simp only [List.mem_map] at hx
    obtain ⟨i, _, rfl⟩ := hx
    exact Real.rpow_pos_of_pos (by norm_num) _
  · exact isAscending_of_chain _ (hpair.chain'.imp (fun _ _ h => le_of_lt h))

/-- C2 witness at the driver's default n = 30. -/
theorem lambda_values_ascending_positive_witness :
    (lambdaValues 30).Chain' (· < ·) ∧ (∀ x ∈ lambdaValues 30, 0 < x) ∧
    isAscending (lambdaValues 30) = true :=
  lambda_values_ascending_positive 30 (by norm_num)

/-- C3: on a fully-connected two-sample test case — arbitrary sample
separation, arbitrary nonnegative edge weights in each direction — the
number of distinct clusters extracted from the Center Matrices of the
U-Path is non-increasing along every ascending sequence of nonnegative λ
values, for every step size in (0, 1], tolerance, extraction tolerance and
iteration budget: monotone fusion along the U-Path. -/
theorem convex_cluster_monotone_fusion (η tol eps a w w2 : ℝ) (fuel : ℕ) (lams : List ℝ)
    (hη0 : 0 < η) (hη1 : η ≤ 1) (ha : 0 ≤ a) (hw : 0 ≤ w) (hw2 : 0 ≤ w2)
    (hasc : lams.Chain' (· ≤ ·)) (hpos : ∀ l ∈ lams, 0 ≤ l) :
    ((uPath (pairGraph w w2) η tol (pairX a) fuel lams (pairX a)).map
      (countClusters eps)).Chain' (fun c1 c2 => c2 ≤ c1) := by
  have hhead : ∀ l0 ∈ lams.head?, pairFloor η a w w2 l0 ≤ a := by
    intro l0 hl0
    exact pairFloor_le_a η a w w2 l0 ha (hpos l0 (List.mem_of_mem_head? hl0)) hw hw2 hη0
  nth_rewrite 2 [pairX_eq_pstate]
  obtain ⟨bs, hbs, hchain⟩ :=
    uPath_pair η a w w2 tol fuel hη0 hη1 ha hw hw2 lams a hasc hpos hhead
  rw [hbs, List.map_map]
  have hchain2 := (chain_strengthen a bs ha hchain).tail
  apply List.chain'_map_of_chain' _ ?_ hchain2
  intro x y hxy
  obtain ⟨hx, hy, hyx⟩ := hxy
  show countClusters eps (pstate a y) ≤ countClusters eps (pstate a x)
  rw [countClusters_pair eps a x hx, countClusters_pair eps a y hy]
  split_ifs with h1 h2 h3
  · norm_num
  · norm_num
  · exact absurd (lt_of_le_of_lt hyx h3) h1
  · norm_num

/-- C3 witness: unit separation, unit weights, step 1/2, λ sequence
[0, 1]. -/
theorem convex_cluster_monotone_fusion_witness :
    ((uPath (pairGraph 1 1) (1 / 2) 1 (pairX 1) 1 [0, 1] (pairX 1)).map
      (countClusters 1)).Chain' (fun c1 c2 => c2 ≤ c1) :=
  convex_cluster_monotone_fusion (1 / 2) 1 1 1 1 1 1 [0, 1] (by norm_num) (by norm_num)
    (by norm_num) (by norm_num) (by norm_num)
    (List.chain'_cons.mpr ⟨by norm_num, List.chain'_singleton 1⟩)
    (by
      intro l hl
      rcases List.mem_cons.mp hl with rfl | hl2
      · norm_num
      · rcases List.mem_cons.mp hl2 with rfl | hl3
        · norm_num
        · cases hl3)

/-- C4: for k outside [1, N−1] the engine signals InvalidParameter for
every λ sequence whatsoever — the validation is eager, before any λ value
is processed — while the CLI driver itself performs no validation: for
every k, valid or not, it passes k straight to the engine. -/
theorem convex_cluster_k_validation {D : ℕ} (X : List (Vec D)) (lambda_vals : List ℝ)
    (n k : ℕ) (η tol eps : ℝ) (fuel : ℕ) (hk : k < 1 ∨ X.length - 1 < k) :
    convexCluster X lambda_vals k η tol eps fuel = .error .invalidParameter ∧
    driverRun X n k η tol eps fuel = convexCluster X (lambdaValues n) k η tol eps fuel := by
  constructor
  · unfold convexCluster
    rw [if_pos hk]
  · rfl

/-- C4 witness: two samples, k = 5 > N − 1 = 1. -/
theorem convex_cluster_k_validation_witness :
    convexCluster (pairX 1) [] 5 1 1 1 0 = .error .invalidParameter ∧
    driverRun (pairX 1) 3 5 1 1 1 0 = convexCluster (pairX 1) (lambdaValues 3) 5 1 1 1 0 :=
  convex_cluster_k_validation (pairX 1) [] 3 5 1 1 1 0 (by right; simp [pairX])

/-- C5: when two rows of the Center Matrix joined by an edge are
identical — so the difference norm is exactly zero — the shrinkage step
takes the norm-zero guard instead of dividing by zero and applies zero
displacement at any λ and any weight: the Center Matrix is unchanged and
the pair stays fused.  (In this real-valued model the absence of NaN/Inf
is the absence of the division by zero.) -/
theorem shrink_fused_pair_zero_displacement {D : ℕ} (U : List (Vec D)) (i j : ℕ)
    (lam wt : ℝ) (h : U.getD i (zeroVec D) = U.getD j (zeroVec D)) :
    applyEdge lam U (i, j, wt) = U := by
  show (U.set i (vadd (vsmul (1 / 2) (vadd (U.getD i (zeroVec D)) (U.getD j (zeroVec D))))
      (vsmul (1 / 2) (shrink (lam * wt) (vsub (U.getD i (zeroVec D)) (U.getD j (zeroVec D))))))).set j
      (vsub (vsmul (1 / 2) (vadd (U.getD i (zeroVec D)) (U.getD j (zeroVec D))))
      (vsmul (1 / 2) (shrink (lam * wt) (vsub (U.getD i (zeroVec D)) (U.getD j (zeroVec D)))))) = U
  rw [← h, vsub_self_vec, shrink_zeroVec, vadd_half_zero, vsub_half_zero, list_set_getD, h,
    list_set_getD]

/-- C5 witness: two identical samples, λ = 7, weight 5. -/
theorem shrink_fused_pair_zero_displacement_witness :
    applyEdge 7 (pairX 0) (0, 1, 5) = pairX 0 :=
  shrink_fused_pair_zero_displacement (pairX 0) 0 1 7 5 rfl

/-- C6: the engine is deterministic — two runs on equal inputs (feature
matrix, λ sequence, k, and the solver parameters) produce equal results;
tie-breaking in neighbor selection is by ascending sample index, so no
random state enters the computation. -/
theorem convex_cluster_deterministic {D : ℕ} (X1 X2 : List (Vec D)) (l1 l2 : List ℝ)
    (k1 k2 : ℕ) (a1 a2 t1 t2 e1 e2 : ℝ) (f1 f2 : ℕ)
    (hX : X1 = X2) (hl : l1 = l2) (hk : k1 = k2) (ha : a1 = a2) (ht : t1 = t2)
    (he : e1 = e2) (hf : f1 = f2) :
    convexCluster X1 l1 k1 a1 t1 e1 f1 = convexCluster X2 l2 k2 a2 t2 e2 f2 := by
  subst hX hl hk ha ht he hf
  rfl

/-- C6 witness. -/
theorem convex_cluster_deterministic_witness :
    convexCluster (pairX 1) [0, 1] 1 1 1 1 2 = convexCluster (pairX 1) [0, 1] 1 1 1 1 2 :=
  convex_cluster_deterministic (pairX 1) (pairX 1) [0, 1] [0, 1] 1 1 1 1 1 1 1 1 2 2
    rfl rfl rfl rfl rfl rfl rfl

/-- C7: plot_convex_clusters draws exactly len(latent_space) trajectories,
the i-th being the polyline whose t-th point is
(u_path[t][i][0], u_path[t][i][1]) with t running over the U-Path in its
given order; the U-Path itself is only read, never modified. -/
theorem plot_convex_clusters_draws_u_path (latent_space : List (List ℚ))
    (u_path : List (List (List ℚ))) (i t : ℕ)
    (hi : i < latent_space.length) (ht : t < u_path.length) :
    (convexTrajectories latent_space u_path).length = latent_space.length ∧
    ((convexTrajectories latent_space u_path).getD i []).getD t (0, 0) =
      (((u_path.getD t []).getD i []).getD 0 0, ((u_path.getD t []).getD i []).getD 1 0) := by
  refine ⟨by simp [convexTrajectories], ?_⟩
  have h1 : (convexTrajectories latent_space u_path).getD i [] = clusterPathPts u_path i := by
    unfold convexTrajectories
    rw [List.getD_eq_getElem?_getD, List.getElem?_eq_getElem (by simpa using hi)]
    simp
  have h2 : u_path.getD t [] = u_path[t] := by
    rw [List.getD_eq_getElem?_getD, List.getElem?_eq_getElem ht]
    rfl
  rw [h1, h2]
  unfold clusterPathPts
  rw [List.getD_eq_getElem?_getD, List.getElem?_eq_getElem (by simpa using ht)]
  simp

/-- C7 witness: one sample, a two-step U-Path. -/
theorem plot_convex_clusters_draws_u_path_witness :
    (convexTrajectories [[1, 2]] [[[3, 4]], [[5, 6]]]).length =
      ([[1, 2]] : List (List ℚ)).length ∧
    ((convexTrajectories [[1, 2]] [[[3, 4]], [[5, 6]]]).getD 0 []).getD 1 (0, 0) =
      ((([[[3, 4]], [[5, 6]]].getD 1 []).getD 0 []).getD 0 0,
        (([[[3, 4]], [[5, 6]]].getD 1 []).getD 0 []).getD 1 0) :=
  plot_convex_clusters_draws_u_path [[1, 2]] [[[3, 4]], [[5, 6]]] 0 1
    (by norm_num) (by norm_num)

/-- C8: with exactly one distinct value in y_true, plot_2D and
plot_convex_clusters divide by (count − 1) = 0 while building their colour
lists and raise ZeroDivisionError before any figure is saved, and so does
plot_2d_kmeans_boundaries when kmeans.n_clusters = 1; at least two
distinct labels (clusters) are required. -/
theorem plot_colour_single_label_zero_division (y_true : List ℤ)
    (latent_space : List (List ℚ)) (u_path : List (List (List ℚ))) (n_clusters : ℕ)
    (hy : (uniqueLabels y_true).length = 1) (hn : n_clusters = 1) :
    plot2DTrace y_true = .error .zeroDivisionError ∧
    plotConvexTrace latent_space u_path y_true = .error .zeroDivisionError ∧
    kmeansBoundariesTrace n_clusters = .error .zeroDivisionError := by
  refine ⟨?_, ?_, ?_⟩
  · unfold plot2DTrace
    rw [hy]
    rfl
  · unfold plotConvexTrace
    rw [hy]
    rfl
  · rw [hn]
    rfl

/-- C8 witness: a single repeated label. -/
theorem plot_colour_single_label_zero_division_witness :
    plot2DTrace [7, 7] = .error .zeroDivisionError ∧
    plotConvexTrace [[1, 2]] [] [7, 7] = .error .zeroDivisionError ∧
    kmeansBoundariesTrace 1 = .error .zeroDivisionError :=
  plot_colour_single_label_zero_division [7, 7] [[1, 2]] [] 1 rfl rfl

/-- C9 counterexample: the non-empty cluster_stats {0: {1: 0}} — one
cluster, one genre with count 0 — makes plot_tree_map divide by the zero
total in round(s/total, 2) and raise ZeroDivisionError, so it does not
reach the hide-unused-axes phase the claim promises for every non-empty
input. -/
theorem plot_tree_map_zero_total_counterexample :
    plotTreeMap [(0, [(1, 0)])] = .error .zeroDivisionError ∧
    ([(0, [(1, 0)])] : List (ℤ × List (ℤ × ℤ))) ≠ [] := ⟨rfl, by simp⟩

/-- C9 (amended): for the empty cluster_stats dict the loop variable i is
never bound and plot_tree_map raises Python's unbound-local error instead
of producing an empty figure; for every non-empty cluster_stats whose
clusters each have a nonzero size total whenever they list any genre, it
allocates ceil(len(cluster_stats)/4) rows of 4 subplots and hides exactly
the axes after the last populated one. -/
theorem plot_tree_map_hides_after_last :
    plotTreeMap [] = .error .unboundLocalError ∧
    ∀ (cs : List (ℤ × List (ℤ × ℤ))), cs ≠ [] →
      (∀ c ∈ cs, c.2 ≠ [] → (c.2.map (fun kv => kv.2)).sum ≠ 0) →
      plotTreeMap cs = .ok ((cs.length + 4 - 1) / 4,
        List.range' cs.length ((cs.length + 4 - 1) / 4 * 4 - cs.length)) := by
  refine ⟨rfl, ?_⟩
  intro cs hne htot
  unfold plotTreeMap
  rw [treeLoop_ok cs 0 none htot]
  cases cs with
  | nil => cases hne rfl
  | cons c rest =>
      simp only [Nat.zero_add]
      rfl

/-- C9 witness: one cluster with one genre of count 2 — one row of four
subplots, axes 1..3 hidden. -/
theorem plot_tree_map_hides_after_last_witness :
    plotTreeMap [(0, [(1, 2)])] = .ok (1, [1, 2, 3]) := by
  have h := plot_tree_map_hides_after_last.2 [(0, [(1, 2)])] (by simp) (by decide)
  simpa [List.range'] using h

/-- C10: for max_n_neighbours ≥ 1, plot_correlation_accuracy computes
exactly max_n_neighbours accuracy values, the (j+1)-st being
accuracy_score applied to the output of utils.correlation with
n_neighbours = j + 1, and plots them against 1..max_n_neighbours in
ascending order. -/
theorem plot_correlation_accuracy_points (corr : ℕ → List ℤ × List ℤ)
    (acc : List ℤ → List ℤ → ℚ) (m j : ℕ) (hm : 1 ≤ m) (hj : j < m) :
    (correlationAccuracies corr acc m).length = m ∧
    (correlationAccuracies corr acc m).getD j 0 = acc (corr (j + 1)).1 (corr (j + 1)).2 ∧
    plotCorrelationTrace corr acc m =
      (List.range' 1 m).map (fun n => (n, acc (corr n).1 (corr n).2)) := by
  refine ⟨by simp [correlationAccuracies], ?_, ?_⟩
  · unfold correlationAccuracies
    rw [List.getD_eq_getElem?_getD, List.getElem?_eq_getElem (by simpa using hj)]
    simp [Nat.add_comm]
  · unfold plotCorrelationTrace correlationAccuracies
    nth_rewrite 1 [← List.map_id (List.range' 1 m)]
    rw [List.zip_map']
    simp

/-- C10 witness: two neighbour counts, list-length accuracy stand-in. -/
theorem plot_correlation_accuracy_points_witness :
    (correlationAccuracies (fun n => ([(n : ℤ)], [(n : ℤ)])) (fun l1 _ => (l1.length : ℚ))
      2).length = 2 ∧
    (correlationAccuracies (fun n => ([(n : ℤ)], [(n : ℤ)])) (fun l1 _ => (l1.length : ℚ))
      2).getD 1 0 = (([((1 : ℕ) + 1 : ℤ)] : List ℤ).length : ℚ) ∧
    plotCorrelationTrace (fun n => ([(n : ℤ)], [(n : ℤ)])) (fun l1 _ => (l1.length : ℚ)) 2 =
      (List.range' 1 2).map (fun n : ℕ => (n, (([(n : ℤ)] : List ℤ).length : ℚ))) :=
  plot_correlation_accuracy_points (fun n => ([(n : ℤ)], [(n : ℤ)]))
    (fun l1 _ => (l1.length : ℚ)) 2 1 (by norm_num) (by norm_num)
